import Mathlib

/-!
Shallow embedding of the `TransactionManager` transaction aggregation engine
from `src/src/tandapay/components/index.js` (the third concatenated document of
that file, lines 351-660).

Modelling conventions:
* JavaScript values `undefined`, `null` and strings for a transfer's `hash`
  field are modelled by the inductive `HashVal`; they are three distinct
  `Map` keys in JavaScript and three distinct constructors here.
* `metadata.blockTimestamp` is modelled as the already-parsed timestamp
  (an integer, the value of `new Date(...).getTime()`); the comparator's
  fail-fast path for unparseable timestamps is outside this model since the
  type admits only parsed values.
* The `datastructures-js` `PriorityQueue` is modelled by a list kept sorted
  in comparator order (descending timestamp): `enqueue` is sorted insertion
  and `toArray` is the list itself.  The position among equal timestamps is
  unspecified for a binary heap; the model fixes one choice (after existing
  equal elements), which no theorem below depends on.
* JavaScript `Map` is modelled by an association list: `set` updates an
  existing binding in place and appends a fresh key at the end, matching
  Map's insertion-order semantics.
* The external collaborators (`getAssetTransfersForNetwork`,
  `getBatchTransactionsByHashForNetwork`, `isAlchemyAvailableForNetwork`) are
  modelled by an environment record holding their outcomes for one
  `loadMore()` call; `loadMore` additionally reports which fetch calls it
  made and with which arguments.
-/

namespace TandaPay

/-- The value of a transfer's `hash` field: JavaScript `undefined`, `null`,
or a string (possibly empty). -/
inductive HashVal where
  | undef : HashVal
  | null : HashVal
  | str : String → HashVal
deriving DecidableEq, Repr

/-- One transfer record, with the two fields the manager reads:
`hash` and `metadata.blockTimestamp` (modelled as the parsed timestamp). -/
structure Transfer where
  hash : HashVal
  blockTimestamp : Int
deriving DecidableEq, Repr

/-- Enriched signed-transaction details for one hash, as returned by the
batch-by-hash fetch.  Only the `hash` field is inspected by the manager; the
`payload` field stands for the remaining data (gas, nonce, input, ...). -/
structure SignedTransaction where
  hash : String
  payload : String
deriving DecidableEq, Repr

/-- Modelled from the spec: `toFullTransaction` lives in `FullTransaction.js`,
which is not under src/.  The spec describes a Full Transaction as the merge
of a grouped transfer record with its possibly absent SignedTransaction,
augmented with wallet/network/contract context; it is modelled as a record
packaging exactly the arguments the manager passes at the call site. -/
structure FullTransaction where
  walletAddress : String
  tandapayContractAddress : Option String
  transfers : List Transfer
  signedTransaction : Option SignedTransaction
  network : String
deriving DecidableEq, Repr

/-- A pagination cursor (`_nextIncomingPage` / `_nextOutgoingPage`):
`undef` is the uninitialized JavaScript `undefined`, `exhausted` is the
explicit `null` sentinel, `token k` is a page key string. -/
inductive Cursor where
  | undef : Cursor
  | exhausted : Cursor
  | token : String → Cursor
deriving DecidableEq, Repr

/-- Association-list lookup, modelling JavaScript `Map.get`. -/
def alistGet {κ α : Type} [DecidableEq κ] : List (κ × α) → κ → Option α
  | [], _ => none
  | (k', v) :: rest, k => if k' = k then some v else alistGet rest k

/-- Association-list update, modelling JavaScript `Map.set`: an existing
binding is updated in place, a fresh key is appended at the end. -/
def alistSet {κ α : Type} [DecidableEq κ] : List (κ × α) → κ → α → List (κ × α)
  | [], k, v => [(k, v)]
  | (k', v') :: rest, k, v =>
    if k' = k then (k, v) :: rest else (k', v') :: alistSet rest k v

/-- The comparator `_transactionSortKey` (lines 458-480): negative when the
first transaction is more recent, positive when the second is, zero on equal
timestamps. -/
def transactionSortKey (tx1 tx2 : Transfer) : Int :=
  if tx2.blockTimestamp < tx1.blockTimestamp then -1
  else if tx1.blockTimestamp < tx2.blockTimestamp then 1
  else 0

/-- `PriorityQueue.enqueue` on the sorted-list model of the queue: insert
keeping comparator order (descending timestamp). -/
def insertQueue (t : Transfer) : List Transfer → List Transfer
  | [] => [t]
  | x :: xs =>
    if t.blockTimestamp ≤ x.blockTimestamp then x :: insertQueue t xs
    else t :: x :: xs

/-- The state of a `TransactionManager` instance (the fields of the class). -/
structure ManagerState where
  network : String
  walletAddress : String
  tandapayContractAddress : Option String
  transactionQueue : List Transfer
  nextIncomingPage : Cursor
  nextOutgoingPage : Cursor
  pageSize : Nat
  pagesLoaded : Nat
  inorderTransactionHashes : List HashVal
  allTransactions : List (HashVal × List Transfer)
  allSignedTransactions : List (String × SignedTransaction)
  getOrderedTransactionsCache : Option (List FullTransaction)
  lock : Bool
deriving DecidableEq, Repr

/-- The constructor (lines 390-434) with a valid wallet address: `_pageSize`
is twice the `pageSize` parameter, cursors start uninitialized, all
containers empty, lock released. -/
def initialState (network walletAddress : String)
    (tandapayContractAddress : Option String) (pageSizeParam : Nat) :
    ManagerState :=
  { network := network
    walletAddress := walletAddress
    tandapayContractAddress := tandapayContractAddress
    transactionQueue := []
    nextIncomingPage := .undef
    nextOutgoingPage := .undef
    pageSize := pageSizeParam * 2
    pagesLoaded := 0
    inorderTransactionHashes := []
    allTransactions := []
    allSignedTransactions := []
    getOrderedTransactionsCache := none
    lock := false }

/-- `isAtLastPage` (lines 559-561): both cursors hold the `null` sentinel. -/
def isAtLastPage (s : ManagerState) : Bool :=
  s.nextIncomingPage = Cursor.exhausted && s.nextOutgoingPage = Cursor.exhausted

/-- `_dropGetOrderedTransactionsCache` (lines 563-568). -/
def dropGetOrderedTransactionsCache (s : ManagerState) : ManagerState :=
  { s with allTransactions := []
           inorderTransactionHashes := []
           getOrderedTransactionsCache := none }

/-- One iteration of the queue-draining loop in `getOrderedTransactions`
(lines 602-612): a first-seen hash opens a fresh group and is appended to the
ordered hash list; a seen hash has the transfer pushed onto its group. -/
def drainStep (st : List (HashVal × List Transfer) × List HashVal)
    (tx : Transfer) : List (HashVal × List Transfer) × List HashVal :=
  match alistGet st.1 tx.hash with
  | none => (alistSet st.1 tx.hash [tx], st.2 ++ [tx.hash])
  | some g => (alistSet st.1 tx.hash (g ++ [tx]), st.2)

/-- `this._allSignedTransactions.get(hash)` where `hash` is a `HashVal`:
the map is keyed by strings, so `undefined`/`null` keys always miss. -/
def signedGet (m : List (String × SignedTransaction)) : HashVal →
    Option SignedTransaction
  | .str s => alistGet m s
  | _ => none

/-- The body of the result-building loop of `getOrderedTransactions`
(lines 636-654) for one hash: `none` models the `continue` on a missing or
empty transfer group. -/
def buildEntry (s : ManagerState) (h : HashVal) : Option FullTransaction :=
  match alistGet s.allTransactions h with
  | none => none
  | some [] => none
  | some (t :: ts) =>
    some { walletAddress := s.walletAddress
           tandapayContractAddress := s.tandapayContractAddress
           transfers := t :: ts
           signedTransaction := signedGet s.allSignedTransactions h
           network := if s.network = "custom" then "sepolia" else s.network }

/-- The `maxSafeIndex` computation (lines 614-632). -/
def safeIndex (s : ManagerState) : Nat :=
  if isAtLastPage s then s.inorderTransactionHashes.length
  else
    min (s.pagesLoaded * (s.pageSize / 2))
      (s.inorderTransactionHashes.length - 1)

/-- The list a fresh (cache-miss) computation of `getOrderedTransactions`
produces from already-drained state fields. -/
def computeRes (s : ManagerState) : List FullTransaction :=
  (s.inorderTransactionHashes.take (safeIndex s)).filterMap (buildEntry s)

/-- `getOrderedTransactions` (lines 592-659): returns the cached list when
present, otherwise drains the queue into the grouping map and ordered hash
list, truncates at the safe index, builds the Full Transactions and caches
them.  Returns the produced list together with the post-call state. -/
def getOrderedTransactions (s : ManagerState) :
    List FullTransaction × ManagerState :=
  match s.getOrderedTransactionsCache with
  | some c => (c, s)
  | none =>
    let d := s.transactionQueue.foldl drainStep
      (s.allTransactions, s.inorderTransactionHashes)
    let s1 := { s with allTransactions := d.1, inorderTransactionHashes := d.2 }
    let res := computeRes s1
    (res, { s1 with getOrderedTransactionsCache := some res })

/-- One page of transfers as returned by `getAssetTransfersForNetwork`:
`pageKey = none` models the `null` "no more pages" sentinel. -/
structure FetchResponse where
  transfers : List Transfer
  pageKey : Option String
deriving DecidableEq, Repr

/-- The outcomes of the external collaborators during one `loadMore()` call:
whether Alchemy is available, each feed's page fetch (resolving with a page
or rejecting with an error message), and the batch-by-hash detail fetch
(resolving with a list of possibly-`null` details, or rejecting).  The batch
result may contain `none` entries and details with arbitrary hashes, matching
the `detail && detail.hash` guard in the source. -/
structure LoadEnv where
  available : Bool
  incoming : Except String FetchResponse
  outgoing : Except String FetchResponse
  batch : Except String (List (Option SignedTransaction))
deriving Repr

/-- How one `loadMore()` call terminated. -/
inductive LoadOutcome where
  | ok : LoadOutcome
  | lockedNoop : LoadOutcome
  | unavailable : LoadOutcome
  | fetchError : String → LoadOutcome
  | batchError : String → LoadOutcome
deriving DecidableEq, Repr

/-- The result of one `loadMore()` call: its outcome, the post-call state,
and a trace of the external calls it made — for each feed, `some pk` when
`getAssetTransfersForNetwork` was called with `pageKey` argument `pk`
(`none` inside meaning `undefined`), and the hash list passed to
`getBatchTransactionsByHashForNetwork` when that call was made. -/
structure LoadResult where
  outcome : LoadOutcome
  state : ManagerState
  incomingCall : Option (Option String)
  outgoingCall : Option (Option String)
  batchCall : Option (List String)
deriving DecidableEq, Repr

/-- The `pageKey` argument built from a cursor at the fetch call site:
`this._nextIncomingPage || undefined` — `undefined` stays `undefined`, and a
token is passed through unless it is falsy (the empty string), which is
coerced to `undefined`. -/
def pageKeyArg : Cursor → Option String
  | .undef => none
  | .exhausted => none
  | .token k => if k = "" then none else some k

/-- Which fetch call (if any) `loadMore` makes for a feed whose cursor is
`c`: none when the cursor holds the `null` sentinel (lines 507/515), else a
call with the `pageKey` argument of `pageKeyArg`. -/
def fetchCall (c : Cursor) : Option (Option String) :=
  if c = Cursor.exhausted then none else some (pageKeyArg c)

/-- The settled page for a feed: the `Promise.resolve({transfers: [],
pageKey: null})` stub when the cursor is exhausted, otherwise the remote
fetch's outcome. -/
def effResponse (c : Cursor) (r : Except String FetchResponse) :
    Except String FetchResponse :=
  if c = Cursor.exhausted then Except.ok { transfers := [], pageKey := none }
  else r

/-- Updating a cursor from a response's `pageKey` (lines 527-528). -/
def cursorOfKey : Option String → Cursor
  | none => Cursor.exhausted
  | some k => Cursor.token k

/-- The filter at line 543: `tx.hash !== null && tx.hash !== undefined &&
tx.hash !== ''`. -/
def validHash : HashVal → Bool
  | .str s => s ≠ ""
  | _ => false

/-- The map at line 543: `tx.hash ?? ''` (nullish coalescing). -/
def hashToStr : HashVal → String
  | .str s => s
  | .undef => ""
  | .null => ""

/-- Storing one batch-fetch result (lines 584-588): `null` details and
details with a falsy hash are skipped, others are `set` into the durable
signed-transaction map. -/
def storeDetail (m : List (String × SignedTransaction)) :
    Option SignedTransaction → List (String × SignedTransaction)
  | none => m
  | some d => if d.hash = "" then m else alistSet m d.hash d

/-- `loadMore` (lines 482-550), with `_populateSignedTransactions`
(lines 570-589) inlined at its only call site (line 543).  Faithful points:
the `try` block covers only the two page fetches, so a rejection of the
batch detail fetch propagates without touching `pagesLoaded`, the caches or
the lock; cursor updates and queue insertions happen only when both page
fetches succeed; the inner hash filter of `_populateSignedTransactions`
re-checks non-emptiness; an empty hash list short-circuits before the batch
call. -/
def loadMore (env : LoadEnv) (s : ManagerState) : LoadResult :=
  if s.lock then
    { outcome := .lockedNoop, state := s
      incomingCall := none, outgoingCall := none, batchCall := none }
  else
    let s0 := { s with lock := true }
    if !env.available then
      { outcome := .unavailable, state := { s0 with lock := false }
        incomingCall := none, outgoingCall := none, batchCall := none }
    else
      let incomingCall := fetchCall s.nextIncomingPage
      let outgoingCall := fetchCall s.nextOutgoingPage
      match effResponse s.nextIncomingPage env.incoming,
            effResponse s.nextOutgoingPage env.outgoing with
      | Except.error e, _ =>
        { outcome := .fetchError e, state := { s0 with lock := false }
          incomingCall := incomingCall, outgoingCall := outgoingCall
          batchCall := none }
      | Except.ok _, Except.error e =>
        { outcome := .fetchError e, state := { s0 with lock := false }
          incomingCall := incomingCall, outgoingCall := outgoingCall
          batchCall := none }
      | Except.ok incomingResponse, Except.ok outgoingResponse =>
        let allTransfers := incomingResponse.transfers ++ outgoingResponse.transfers
        let s1 := { s0 with
          nextIncomingPage := cursorOfKey incomingResponse.pageKey
          nextOutgoingPage := cursorOfKey outgoingResponse.pageKey
          transactionQueue :=
            allTransfers.foldl (fun q t => insertQueue t q) s0.transactionQueue }
        let inputHashes :=
          (allTransfers.filter (fun t => validHash t.hash)).map
            (fun t => hashToStr t.hash)
        let hashes := inputHashes.filter (fun h => h ≠ "")
        if hashes.length = 0 then
          let s2 := dropGetOrderedTransactionsCache
            { s1 with pagesLoaded := s1.pagesLoaded + 1, lock := false }
          { outcome := .ok, state := s2
            incomingCall := incomingCall, outgoingCall := outgoingCall
            batchCall := none }
        else
          let needsDetails := hashes.filter
            (fun h => !(alistGet s1.allSignedTransactions h).isSome)
          match env.batch with
          | Except.error e =>
            { outcome := .batchError e, state := s1
              incomingCall := incomingCall, outgoingCall := outgoingCall
              batchCall := some needsDetails }
          | Except.ok details =>
            let s2 := dropGetOrderedTransactionsCache
              { s1 with
                  allSignedTransactions :=
                    details.foldl storeDetail s1.allSignedTransactions
                  pagesLoaded := s1.pagesLoaded + 1
                  lock := false }
            { outcome := .ok, state := s2
              incomingCall := incomingCall, outgoingCall := outgoingCall
              batchCall := some needsDetails }

/-- States reachable from a freshly constructed manager by successful
`loadMore()` calls, with `getOrderedTransactions()` queries allowed in
between (the query mutates the internal grouping caches). -/
inductive Reachable : ManagerState → Prop where
  | init (network walletAddress : String) (contract : Option String)
      (pageSizeParam : Nat) :
      Reachable (initialState network walletAddress contract pageSizeParam)
  | loadMore {s : ManagerState} (env : LoadEnv) (h : Reachable s)
      (hok : (TandaPay.loadMore env s).outcome = LoadOutcome.ok) :
      Reachable (TandaPay.loadMore env s).state
  | query {s : ManagerState} (h : Reachable s) :
      Reachable (getOrderedTransactions s).2

/-!
Reference-level model of the cache-hit path of `getOrderedTransactions`
(lines 595-598).  JavaScript arrays hold references to objects: the model
represents a `FullTransaction[]` as a list of indices into an object store.
`return [...this._getOrderedTransactionsCache]` allocates a fresh array
whose slots hold the same element references as the cache array.
-/

/-- The element references of the fresh array returned on a cache hit:
the spread copies the cache's element references one by one. -/
def cacheHitReturnRefs (cacheRefs : List Nat) : List Nat :=
  cacheRefs.map (fun i => i)

/-- Dereference an array of element references against the object store. -/
def derefAll (store : List FullTransaction) (refs : List Nat) :
    List (Option FullTransaction) :=
  refs.map (fun i => store.get? i)

/-- Overwrite the `FullTransaction` object behind one reference — the
mutation a caller can perform on an element of a returned array. -/
def storeSet (store : List FullTransaction) (i : Nat) (v : FullTransaction) :
    List FullTransaction :=
  store.set i v

/-!  Invariant predicates used by the theorems. -/

/-- The queue list is in comparator order: descending `blockTimestamp`. -/
def QueueSorted (q : List Transfer) : Prop :=
  q.Pairwise (fun a b => b.blockTimestamp ≤ a.blockTimestamp)

/-- The first transfer of the group stored for hash `h`. -/
def groupHead (m : List (HashVal × List Transfer)) (h : HashVal) :
    Option Transfer :=
  (alistGet m h).bind List.head?

/-- Well-formedness of the grouping map and ordered hash list produced by
draining the queue: the list has no duplicates and enumerates exactly the
map's keys; every group is nonempty and holds only transfers bearing its
key; and the list is ordered by descending group-head timestamp. -/
def DrainP (m : List (HashVal × List Transfer)) (o : List HashVal) : Prop :=
  o.Nodup ∧
  (∀ h, (alistGet m h).isSome = true ↔ h ∈ o) ∧
  (∀ h g, alistGet m h = some g → g ≠ [] ∧ ∀ t ∈ g, t.hash = h) ∧
  o.Pairwise (fun h1 h2 => ∀ t1 t2, groupHead m h1 = some t1 →
    groupHead m h2 = some t2 → t2.blockTimestamp ≤ t1.blockTimestamp)

/-- Every group head recorded so far is at least as recent as every transfer
still to be drained. -/
def HeadsBound (m : List (HashVal × List Transfer)) (o : List HashVal)
    (q : List Transfer) : Prop :=
  ∀ h ∈ o, ∀ t1, groupHead m h = some t1 →
    ∀ t ∈ q, t.blockTimestamp ≤ t1.blockTimestamp

/-- The grouping caches are empty and the ordered cache unset — the shape
`loadMore` leaves behind (via `_dropGetOrderedTransactionsCache`) and the
shape a fresh manager starts in. -/
def Fresh (s : ManagerState) : Prop :=
  s.allTransactions = [] ∧ s.inorderTransactionHashes = [] ∧
  s.getOrderedTransactionsCache = none

/-- The grouping caches hold exactly the drain of the current queue and the
ordered cache holds the list a fresh computation produces — the shape
`getOrderedTransactions` leaves behind. -/
def Drained (s : ManagerState) : Prop :=
  (s.allTransactions, s.inorderTransactionHashes) =
    s.transactionQueue.foldl drainStep ([], []) ∧
  s.getOrderedTransactionsCache = some (computeRes s)

/-- The state invariant maintained by all reachable states. -/
def Inv (s : ManagerState) : Prop :=
  QueueSorted s.transactionQueue ∧ s.lock = false ∧ (Fresh s ∨ Drained s)

/-- The hash identifying a produced Full Transaction: the hash of its first
transfer (all its transfers share one hash in any drained state). -/
def ftKey (ft : FullTransaction) : Option HashVal :=
  ft.transfers.head?.map (fun t => t.hash)

/-- The timestamp of the first (most recent) transfer of a produced Full
Transaction. -/
def ftHeadTs (ft : FullTransaction) : Option Int :=
  ft.transfers.head?.map (fun t => t.blockTimestamp)

/-- Boolean "descending" comparison on optional head timestamps, used to
state sortedness decidably. -/
def tsDescB (a b : Option Int) : Bool :=
  match a, b with
  | some x, some y => decide (y ≤ x)
  | _, _ => true

/-! Concrete fixtures for witnesses and counterexamples. -/

/-- A well-formed wallet address used by the concrete scenarios. -/
def walletA : String := "0xAb5801a7D398351b8bE11C439e05C5B3259aeC9B"

/-- A freshly constructed manager on Sepolia with the default page size. -/
def mgr0 : ManagerState := initialState "sepolia" walletA none 10

/-- Both page fetches succeed (one transfer incoming, feeds exhausted) but
the batch signed-details fetch rejects. -/
def envBatchReject : LoadEnv :=
  { available := true
    incoming := Except.ok
      { transfers := [{ hash := HashVal.str "0xa", blockTimestamp := 5 }]
        pageKey := none }
    outgoing := Except.ok { transfers := [], pageKey := none }
    batch := Except.error "network down" }

/-- The incoming page fetch rejects while the outgoing one succeeds. -/
def envIncomingReject : LoadEnv :=
  { available := true
    incoming := Except.error "boom"
    outgoing := Except.ok { transfers := [], pageKey := some "og2" }
    batch := Except.ok [] }

/-- Empty pages whose page keys leave the incoming cursor holding the empty
string and the outgoing cursor holding a normal token. -/
def envEmptyToken : LoadEnv :=
  { available := true
    incoming := Except.ok { transfers := [], pageKey := some "" }
    outgoing := Except.ok { transfers := [], pageKey := some "next" }
    batch := Except.ok [] }

/-- The manager after loading `envEmptyToken`: its incoming cursor is the
empty-string token. -/
def mgrEmptyToken : ManagerState := (loadMore envEmptyToken mgr0).state

/-- A second round of empty, exhausting pages. -/
def envEmptyLast : LoadEnv :=
  { available := true
    incoming := Except.ok { transfers := [], pageKey := none }
    outgoing := Except.ok { transfers := [], pageKey := none }
    batch := Except.ok [] }

/-- One page whose two transfers share the hash `0xa`. -/
def envDupHash : LoadEnv :=
  { available := true
    incoming := Except.ok
      { transfers := [{ hash := HashVal.str "0xa", blockTimestamp := 5 },
                      { hash := HashVal.str "0xa", blockTimestamp := 4 }]
        pageKey := none }
    outgoing := Except.ok { transfers := [], pageKey := none }
    batch := Except.ok [] }

/-- A page holding one transfer with an `undefined` hash, feed exhausted. -/
def pageMissIn : FetchResponse :=
  { transfers := [{ hash := HashVal.undef, blockTimestamp := 5 }]
    pageKey := none }

/-- A page holding one transfer with a `null` hash, feed exhausted. -/
def pageMissOut : FetchResponse :=
  { transfers := [{ hash := HashVal.null, blockTimestamp := 4 }]
    pageKey := none }

/-- One transfer with an `undefined` hash and one with a `null` hash, both
feeds exhausted afterwards. -/
def envMissingHash : LoadEnv :=
  { available := true
    incoming := Except.ok pageMissIn
    outgoing := Except.ok pageMissOut
    batch := Except.ok [] }

/-- The manager after loading `envMissingHash`. -/
def mgrMissingHash : ManagerState := (loadMore envMissingHash mgr0).state

/-- An incoming page with one leg of the two-leg transaction `0xa` and the
single-leg transaction `0xb`; more incoming pages remain. -/
def pageDataIn : FetchResponse :=
  { transfers := [{ hash := HashVal.str "0xa", blockTimestamp := 9 },
                  { hash := HashVal.str "0xb", blockTimestamp := 7 }]
    pageKey := some "in2" }

/-- An outgoing page with the other leg of `0xa` and the single-leg
transaction `0xc`; the outgoing feed is exhausted afterwards. -/
def pageDataOut : FetchResponse :=
  { transfers := [{ hash := HashVal.str "0xa", blockTimestamp := 9 },
                  { hash := HashVal.str "0xc", blockTimestamp := 5 }]
    pageKey := none }

/-- A realistic page pair: a two-leg transaction `0xa`, two single-leg
transactions, the incoming feed not yet exhausted, and batch details for
`0xa` (plus one `null` entry the source skips). -/
def envData : LoadEnv :=
  { available := true
    incoming := Except.ok pageDataIn
    outgoing := Except.ok pageDataOut
    batch := Except.ok [some { hash := "0xa", payload := "pa" }, none] }

/-- The manager after one successful `loadMore()` of `envData`. -/
def mgrData : ManagerState := (loadMore envData mgr0).state

/-- A Full Transaction object used by the aliasing scenario. -/
def ftFix : FullTransaction :=
  { walletAddress := walletA
    tandapayContractAddress := none
    transfers := [{ hash := HashVal.str "0xa", blockTimestamp := 5 }]
    signedTransaction := none
    network := "sepolia" }

/-- The same object after a caller overwrites its `network` field. -/
def ftFix2 : FullTransaction := { ftFix with network := "mainnet" }

/-! Association-list lemmas. -/

theorem alistGet_set_self {κ α : Type} [DecidableEq κ] (m : List (κ × α))
    (k : κ) (v : α) : alistGet (alistSet m k v) k = some v := by
  induction m with
  | nil => simp [alistSet, alistGet]
  | cons p rest ih =>
    obtain ⟨a, b⟩ := p
    by_cases h : a = k
    · simp [alistSet, alistGet, h]
    · simp [alistSet, alistGet, h, ih]

theorem alistGet_set_ne {κ α : Type} [DecidableEq κ] (m : List (κ × α))
    (k k' : κ) (v : α) (h : ¬k = k') :
    alistGet (alistSet m k v) k' = alistGet m k' := by
  induction m with
  | nil => simp [alistSet, alistGet, h]
  | cons p rest ih =>
    obtain ⟨a, b⟩ := p
    by_cases ha : a = k
    · subst ha
      simp [alistSet, alistGet, h]
    · by_cases ha' : a = k'
      · have h2 : ¬k' = k := fun e => h e.symm
        simp [alistSet, alistGet, ha', h2]
      · simp [alistSet, alistGet, ha, ha', ih]

theorem groupHead_set_ne (m : List (HashVal × List Transfer)) (k h : HashVal)
    (g : List Transfer) (hne : ¬k = h) :
    groupHead (alistSet m k g) h = groupHead m h := by
  simp [groupHead, alistGet_set_ne m k h g hne]

theorem groupHead_set_self (m : List (HashVal × List Transfer)) (k : HashVal)
    (g : List Transfer) : groupHead (alistSet m k g) k = g.head? := by
  simp [groupHead, alistGet_set_self]

/-! Queue-insertion lemmas. -/

theorem mem_insertQueue (t a : Transfer) (q : List Transfer) :
    a ∈ insertQueue t q ↔ a = t ∨ a ∈ q := by
  induction q with
  | nil => simp [insertQueue]
  | cons x xs ih =>
    simp only [insertQueue]
    split
    · rw [List.mem_cons, List.mem_cons, ih]
      tauto
    · rw [List.mem_cons]

theorem queueSorted_insertQueue (t : Transfer) (q : List Transfer)
    (h : QueueSorted q) : QueueSorted (insertQueue t q) := by
  induction q with
  | nil => simp [insertQueue, QueueSorted]
  | cons x xs ih =>
    unfold QueueSorted at h ⊢
    rw [List.pairwise_cons] at h
    obtain ⟨hx, hxs⟩ := h
    simp only [insertQueue]
    split
    · rename_i hle
      rw [List.pairwise_cons]
      constructor
      · intro b hb
        rcases (mem_insertQueue t b xs).mp hb with rfl | hb
        · exact hle
        · exact hx b hb
      · exact ih hxs
    · rename_i hgt
      push_neg at hgt
      rw [List.pairwise_cons]
      constructor
      · intro b hb
        rcases List.mem_cons.mp hb with rfl | hb
        · exact le_of_lt hgt
        · exact le_trans (hx b hb) (le_of_lt hgt)
      · exact List.pairwise_cons.mpr ⟨hx, hxs⟩

theorem queueSorted_foldl_insert (ts : List Transfer) (q : List Transfer)
    (h : QueueSorted q) :
    QueueSorted (ts.foldl (fun q t => insertQueue t q) q) := by
  induction ts generalizing q with
  | nil => exact h
  | cons t ts ih => exact ih _ (queueSorted_insertQueue t q h)

theorem mem_foldl_insert (ts : List Transfer) (q : List Transfer)
    (a : Transfer) :
    a ∈ ts.foldl (fun q t => insertQueue t q) q ↔ a ∈ ts ∨ a ∈ q := by
  induction ts generalizing q with
  | nil => simp
  | cons t ts ih =>
    rw [List.foldl_cons, ih, mem_insertQueue]
    simp only [List.mem_cons]
    tauto

/-! Drain-loop invariant. -/

theorem drainP_nil : DrainP [] [] := by
  refine ⟨List.nodup_nil, ?_, ?_, List.Pairwise.nil⟩ <;> simp [alistGet]

theorem drain_fold_inv (q : List Transfer) :
    ∀ (m : List (HashVal × List Transfer)) (o : List HashVal),
      DrainP m o → HeadsBound m o q → QueueSorted q →
      DrainP (q.foldl drainStep (m, o)).1 (q.foldl drainStep (m, o)).2 := by
  induction q with
  | nil => intro m o hP _ _; exact hP
  | cons t rest ih =>
    intro m o hP hB hS
    obtain ⟨hnd, hiff, hgrp, hpw⟩ := hP
    have hSrest : QueueSorted rest := (List.pairwise_cons.mp hS).2
    have hSbound : ∀ b ∈ rest, b.blockTimestamp ≤ t.blockTimestamp :=
      (List.pairwise_cons.mp hS).1
    rw [List.foldl_cons]
    cases hget : alistGet m t.hash with
    | some g =>
      have hstep : drainStep (m, o) t = (alistSet m t.hash (g ++ [t]), o) := by
        simp [drainStep, hget]
      rw [hstep]
      have hgne : g ≠ [] := (hgrp t.hash g hget).1
      have hheads : ∀ h, groupHead (alistSet m t.hash (g ++ [t])) h =
          groupHead m h := by
        intro h
        by_cases hh : t.hash = h
        · subst hh
          rw [groupHead_set_self]
          simp [groupHead, hget, List.head?_append_of_ne_nil _ hgne]
        · exact groupHead_set_ne m t.hash h (g ++ [t]) hh
      apply ih
      · refine ⟨hnd, ?_, ?_, ?_⟩
        · intro h
          by_cases hh : t.hash = h
          · subst hh
            simp only [alistGet_set_self, Option.isSome_some, true_iff]
            exact (hiff t.hash).mp (by simp [hget])
          · rw [alistGet_set_ne m t.hash h _ hh]
            exact hiff h
        · intro h g' hg'
          by_cases hh : t.hash = h
          · subst hh
            rw [alistGet_set_self] at hg'
            cases hg'
            refine ⟨by simp, ?_⟩
            intro x hx
            rcases List.mem_append.mp hx with hx | hx
            · exact (hgrp t.hash g hget).2 x hx
            · rw [List.mem_singleton.mp hx]
          · rw [alistGet_set_ne m t.hash h _ hh] at hg'
            exact hgrp h g' hg'
        · refine hpw.imp ?_
          intro h1 h2 hr t1 t2 h1g h2g
          exact hr t1 t2 (by rw [← hheads h1]; exact h1g)
            (by rw [← hheads h2]; exact h2g)
      · intro h hho t1 ht1 x hx
        rw [hheads h] at ht1
        exact hB h hho t1 ht1 x (List.mem_cons_of_mem _ hx)
      · exact hSrest
    | none =>
      have hstep : drainStep (m, o) t = (alistSet m t.hash [t], o ++ [t.hash]) := by
        simp [drainStep, hget]
      rw [hstep]
      have hnotin : t.hash ∉ o := by
        intro hmem
        have := (hiff t.hash).mpr hmem
        simp [hget] at this
      apply ih
      · refine ⟨?_, ?_, ?_, ?_⟩
        · rw [List.nodup_append]
          exact ⟨hnd, List.nodup_singleton _,
            fun a ha hb => hnotin (by rwa [List.mem_singleton.mp hb] at ha)⟩
        · intro h
          by_cases hh : t.hash = h
          · subst hh
            simp [alistGet_set_self]
          · rw [alistGet_set_ne m t.hash h _ hh, List.mem_append,
              List.mem_singleton]
            constructor
            · intro hs
              exact Or.inl ((hiff h).mp hs)
            · intro hs
              rcases hs with hs | hs
              · exact (hiff h).mpr hs
              · exact absurd hs.symm hh
        · intro h g' hg'
          by_cases hh : t.hash = h
          · subst hh
            rw [alistGet_set_self] at hg'
            cases hg'
            exact ⟨by simp, by simp⟩
          · rw [alistGet_set_ne m t.hash h _ hh] at hg'
            exact hgrp h g' hg'
        · rw [List.pairwise_append]
          refine ⟨?_, List.pairwise_singleton _ _, ?_⟩
          · refine hpw.imp_of_mem ?_
            intro h1 h2 hm1 hm2 hr t1 t2 h1g h2g
            have hh1 : ¬t.hash = h1 := fun he => hnotin (he ▸ hm1)
            have hh2 : ¬t.hash = h2 := fun he => hnotin (he ▸ hm2)
            rw [groupHead_set_ne m t.hash h1 [t] hh1] at h1g
            rw [groupHead_set_ne m t.hash h2 [t] hh2] at h2g
            exact hr t1 t2 h1g h2g
          · intro h1 hm1 h2 hm2 t1 t2 h1g h2g
            rw [List.mem_singleton.mp hm2] at h2g
            rw [groupHead_set_self] at h2g
            have hh1 : ¬t.hash = h1 := fun he => hnotin (he ▸ hm1)
            rw [groupHead_set_ne m t.hash h1 [t] hh1] at h1g
            have := hB h1 hm1 t1 h1g t (List.mem_cons_self t rest)
            simp only [List.head?_cons, Option.some.injEq] at h2g
            rw [← h2g]
            exact this
      · intro h hmem t1 ht1 x hx
        rcases List.mem_append.mp hmem with hmem | hmem
        · have hh : ¬t.hash = h := fun he => hnotin (he ▸ hmem)
          rw [groupHead_set_ne m t.hash h [t] hh] at ht1
          exact hB h hmem t1 ht1 x (List.mem_cons_of_mem _ hx)
        · rw [List.mem_singleton.mp hmem] at ht1
          rw [groupHead_set_self] at ht1
          simp only [List.head?_cons, Option.some.injEq] at ht1
          rw [← ht1]
          exact hSbound x hx
      · exact hSrest

/-! Helper lemmas about `filterMap` runs where every entry produces a
value whose key is the generating hash. -/

theorem filterMap_keys_eq (f : HashVal → Option FullTransaction)
    (l : List HashVal)
    (h1 : ∀ h ∈ l, ∃ ft, f h = some ft)
    (h2 : ∀ h ∈ l, ∀ ft, f h = some ft → ftKey ft = some h) :
    (l.filterMap f).map ftKey = l.map some := by
  induction l with
  | nil => rfl
  | cons a l ih =>
    obtain ⟨ft, hft⟩ := h1 a (List.mem_cons_self a l)
    rw [List.filterMap_cons_some hft, List.map_cons, List.map_cons]
    rw [h2 a (List.mem_cons_self a l) ft hft]
    rw [ih (fun x hx => h1 x (List.mem_cons_of_mem _ hx))
      (fun x hx => h2 x (List.mem_cons_of_mem _ hx))]

/-- In any state whose grouping caches are the drain of a
comparator-sorted queue, the drain well-formedness predicate holds. -/
theorem drained_drainP (s : ManagerState)
    (hq : QueueSorted s.transactionQueue)
    (hd : (s.allTransactions, s.inorderTransactionHashes) =
      s.transactionQueue.foldl drainStep ([], [])) :
    DrainP s.allTransactions s.inorderTransactionHashes := by
  have hb : HeadsBound [] [] s.transactionQueue := by
    intro h hh
    exact absurd hh (List.not_mem_nil h)
  have := drain_fold_inv s.transactionQueue [] [] drainP_nil hb hq
  have h1 : s.allTransactions = (s.transactionQueue.foldl drainStep ([], [])).1 :=
    congrArg Prod.fst hd
  have h2 : s.inorderTransactionHashes =
      (s.transactionQueue.foldl drainStep ([], [])).2 :=
    congrArg Prod.snd hd
  rw [h1, h2]
  exact this

/-- `buildEntry` succeeds exactly on the hashes of the ordered list, and the
produced Full Transaction carries its generating hash and the group head. -/
theorem buildEntry_spec (s : ManagerState)
    (hP : DrainP s.allTransactions s.inorderTransactionHashes) :
    (∀ h ∈ s.inorderTransactionHashes, ∃ ft, buildEntry s h = some ft) ∧
    (∀ h ft, buildEntry s h = some ft → ftKey ft = some h ∧
      ∃ t1, groupHead s.allTransactions h = some t1 ∧
        ftHeadTs ft = some t1.blockTimestamp) := by
  obtain ⟨hnd, hiff, hgrp, hpw⟩ := hP
  constructor
  · intro h hm
    have hsome : (alistGet s.allTransactions h).isSome = true := (hiff h).mpr hm
    cases hget : alistGet s.allTransactions h with
    | none => rw [hget] at hsome; cases hsome
    | some g =>
      cases g with
      | nil => exact absurd rfl (hgrp h [] hget).1
      | cons t ts =>
        cases hbe : buildEntry s h with
        | none => simp [buildEntry, hget] at hbe
        | some ft => exact ⟨ft, rfl⟩
  · intro h ft hft
    cases hget : alistGet s.allTransactions h with
    | none => simp [buildEntry, hget] at hft
    | some g =>
      cases g with
      | nil => simp [buildEntry, hget] at hft
      | cons t ts =>
        simp only [buildEntry, hget] at hft
        cases hft
        constructor
        · simp only [ftKey, List.head?_cons, Option.map_some']
          exact congrArg some ((hgrp h (t :: ts) hget).2 t (List.mem_cons_self t ts))
        · refine ⟨t, ?_, ?_⟩
          · simp [groupHead, hget]
          · simp [ftHeadTs]

/-- The cache-hit path of `getOrderedTransactions` (lines 595-598). -/
theorem getOrdered_cache_hit (s : ManagerState) (c : List FullTransaction)
    (hc : s.getOrderedTransactionsCache = some c) :
    getOrderedTransactions s = (c, s) := by
  simp [getOrderedTransactions, hc]

/-- Frame of `getOrderedTransactions`: only the grouping map, ordered hash
list and ordered cache can change. -/
theorem getOrdered_frame (s : ManagerState) :
    ((getOrderedTransactions s).2.transactionQueue = s.transactionQueue ∧
     (getOrderedTransactions s).2.nextIncomingPage = s.nextIncomingPage ∧
     (getOrderedTransactions s).2.nextOutgoingPage = s.nextOutgoingPage ∧
     (getOrderedTransactions s).2.pageSize = s.pageSize ∧
     (getOrderedTransactions s).2.pagesLoaded = s.pagesLoaded) ∧
    ((getOrderedTransactions s).2.allSignedTransactions = s.allSignedTransactions ∧
     (getOrderedTransactions s).2.walletAddress = s.walletAddress ∧
     (getOrderedTransactions s).2.tandapayContractAddress = s.tandapayContractAddress ∧
     (getOrderedTransactions s).2.network = s.network ∧
     (getOrderedTransactions s).2.lock = s.lock) := by
  cases hc : s.getOrderedTransactionsCache <;>
    simp [getOrderedTransactions, hc]

/-- Characterization of `getOrderedTransactions` on invariant states: the
returned list is the fresh computation over the post-call state, whose
grouping caches are the drain of the (unchanged) queue, and the invariant is
maintained with the cache now populated. -/
theorem getOrdered_char (s : ManagerState) (hs : Inv s) :
    (getOrderedTransactions s).1 = computeRes (getOrderedTransactions s).2 ∧
    Drained (getOrderedTransactions s).2 ∧ Inv (getOrderedTransactions s).2 := by
  obtain ⟨hq, hlock, hfd⟩ := hs
  cases hc : s.getOrderedTransactionsCache with
  | some c =>
    have hdr : Drained s := by
      rcases hfd with hf | hd
      · rw [hf.2.2] at hc; cases hc
      · exact hd
    have hres : (getOrderedTransactions s) = (c, s) := by
      simp [getOrderedTransactions, hc]
    rw [hres]
    have : some c = some (computeRes s) := by rw [← hc, hdr.2]
    refine ⟨by injection this, hdr, hq, hlock, Or.inr hdr⟩
  | none =>
    have hfr : Fresh s := by
      rcases hfd with hf | hd
      · exact hf
      · rw [hd.2] at hc; cases hc
    have hres : getOrderedTransactions s =
        (computeRes { s with
            allTransactions := (s.transactionQueue.foldl drainStep ([], [])).1
            inorderTransactionHashes := (s.transactionQueue.foldl drainStep ([], [])).2 },
          { s with
            allTransactions := (s.transactionQueue.foldl drainStep ([], [])).1
            inorderTransactionHashes := (s.transactionQueue.foldl drainStep ([], [])).2
            getOrderedTransactionsCache := some (computeRes { s with
              allTransactions := (s.transactionQueue.foldl drainStep ([], [])).1
              inorderTransactionHashes := (s.transactionQueue.foldl drainStep ([], [])).2 }) }) := by
      simp only [getOrderedTransactions, hc, hfr.1, hfr.2.1]
    rw [hres]
    have hcr : computeRes { s with
        allTransactions := (s.transactionQueue.foldl drainStep ([], [])).1
        inorderTransactionHashes := (s.transactionQueue.foldl drainStep ([], [])).2
        getOrderedTransactionsCache := some (computeRes { s with
          allTransactions := (s.transactionQueue.foldl drainStep ([], [])).1
          inorderTransactionHashes := (s.transactionQueue.foldl drainStep ([], [])).2 }) } =
        computeRes { s with
          allTransactions := (s.transactionQueue.foldl drainStep ([], [])).1
          inorderTransactionHashes := (s.transactionQueue.foldl drainStep ([], [])).2 } := rfl
    refine ⟨hcr.symm, ⟨rfl, by rw [hcr]⟩, hq, hlock, Or.inr ⟨rfl, by rw [hcr]⟩⟩

/-! `loadMore` branch lemmas. -/

theorem relock_eq (s : ManagerState) (h : s.lock = false) :
    { { s with lock := true } with lock := false } = s := by
  cases s
  simp_all

theorem loadMore_locked (env : LoadEnv) (s : ManagerState)
    (hl : s.lock = true) :
    loadMore env s =
      { outcome := .lockedNoop, state := s,
        incomingCall := none, outgoingCall := none, batchCall := none } := by
  simp [loadMore, hl]

theorem loadMore_unavailable (env : LoadEnv) (s : ManagerState)
    (hl : s.lock = false) (ha : env.available = false) :
    loadMore env s =
      { outcome := .unavailable, state := s,
        incomingCall := none, outgoingCall := none, batchCall := none } := by
  simp [loadMore, hl, ha, relock_eq s hl]

theorem loadMore_fetchError (env : LoadEnv) (s : ManagerState)
    (hl : s.lock = false) (ha : env.available = true)
    (he : (∃ e, effResponse s.nextIncomingPage env.incoming = Except.error e) ∨
          (∃ e, effResponse s.nextOutgoingPage env.outgoing = Except.error e)) :
    ∃ c, loadMore env s =
      { outcome := .fetchError c, state := s,
        incomingCall := fetchCall s.nextIncomingPage,
        outgoingCall := fetchCall s.nextOutgoingPage, batchCall := none } ∧
      (effResponse s.nextIncomingPage env.incoming = Except.error c ∨
       effResponse s.nextOutgoingPage env.outgoing = Except.error c) := by
  cases hi : effResponse s.nextIncomingPage env.incoming with
  | error e =>
    refine ⟨e, ?_, Or.inl rfl⟩
    simp [loadMore, hl, ha, hi, relock_eq s hl]
  | ok ir =>
    cases ho : effResponse s.nextOutgoingPage env.outgoing with
    | error e =>
      refine ⟨e, ?_, Or.inr rfl⟩
      simp [loadMore, hl, ha, hi, ho, relock_eq s hl]
    | ok og =>
      exfalso
      rcases he with ⟨e, he⟩ | ⟨e, he⟩
      · rw [hi] at he; cases he
      · rw [ho] at he; cases he

theorem loadMore_calls (env : LoadEnv) (s : ManagerState)
    (hl : s.lock = false) (ha : env.available = true) :
    (loadMore env s).incomingCall = fetchCall s.nextIncomingPage ∧
    (loadMore env s).outgoingCall = fetchCall s.nextOutgoingPage := by
  cases hi : effResponse s.nextIncomingPage env.incoming with
  | error e => simp [loadMore, hl, ha, hi]
  | ok ir =>
    cases ho : effResponse s.nextOutgoingPage env.outgoing with
    | error e => simp [loadMore, hl, ha, hi, ho]
    | ok og =>
      cases hb : env.batch with
      | error e =>
        simp only [loadMore, hl, ha, hi, ho, hb, Bool.false_eq_true, if_false,
          Bool.not_true, ite_false, Bool.not_false, ite_true]
        split <;> simp
      | ok ds =>
        simp only [loadMore, hl, ha, hi, ho, hb, Bool.false_eq_true, if_false,
          Bool.not_true, ite_false, Bool.not_false, ite_true]
        split <;> simp

theorem loadMore_exhausted_stays (env : LoadEnv) (s : ManagerState) :
    (s.nextIncomingPage = Cursor.exhausted →
      (loadMore env s).state.nextIncomingPage = Cursor.exhausted) ∧
    (s.nextOutgoingPage = Cursor.exhausted →
      (loadMore env s).state.nextOutgoingPage = Cursor.exhausted) := by
  by_cases hl : s.lock = true
  · rw [loadMore_locked env s hl]
    exact ⟨fun h => h, fun h => h⟩
  · rw [Bool.not_eq_true] at hl
    by_cases ha : env.available = true
    · cases hi : effResponse s.nextIncomingPage env.incoming with
      | error e =>
        obtain ⟨c, hr, _⟩ := loadMore_fetchError env s hl ha (Or.inl ⟨e, hi⟩)
        rw [hr]
        exact ⟨fun h => h, fun h => h⟩
      | ok ir =>
        cases ho : effResponse s.nextOutgoingPage env.outgoing with
        | error e =>
          obtain ⟨c, hr, _⟩ := loadMore_fetchError env s hl ha (Or.inr ⟨e, ho⟩)
          rw [hr]
          exact ⟨fun h => h, fun h => h⟩
        | ok og =>
          constructor
          · intro hc
            have hirk : ir.pageKey = none := by
              rw [hc] at hi
              simp [effResponse] at hi
              rw [← hi]
            cases hb : env.batch with
            | error e =>
              simp only [loadMore, hl, ha, hi, ho, hb, Bool.false_eq_true, if_false,
                Bool.not_true, ite_false, Bool.not_false, ite_true]
              split <;> simp_all [dropGetOrderedTransactionsCache, hirk, cursorOfKey]
            | ok ds =>
              simp only [loadMore, hl, ha, hi, ho, hb, Bool.false_eq_true, if_false,
                Bool.not_true, ite_false, Bool.not_false, ite_true]
              split <;> simp_all [dropGetOrderedTransactionsCache, hirk, cursorOfKey]
          · intro hc
            have hogk : og.pageKey = none := by
              rw [hc] at ho
              simp [effResponse] at ho
              rw [← ho]
            cases hb : env.batch with
            | error e =>
              simp only [loadMore, hl, ha, hi, ho, hb, Bool.false_eq_true, if_false,
                Bool.not_true, ite_false, Bool.not_false, ite_true]
              split <;> simp_all [dropGetOrderedTransactionsCache, hogk, cursorOfKey]
            | ok ds =>
              simp only [loadMore, hl, ha, hi, ho, hb, Bool.false_eq_true, if_false,
                Bool.not_true, ite_false, Bool.not_false, ite_true]
              split <;> simp_all [dropGetOrderedTransactionsCache, hogk, cursorOfKey]
    · rw [Bool.not_eq_true] at ha
      rw [loadMore_unavailable env s hl ha]
      exact ⟨fun h => h, fun h => h⟩

/-! Durability of the signed-transaction map. -/

theorem alistGet_set_isSome {κ α : Type} [DecidableEq κ] (m : List (κ × α))
    (k k' : κ) (v : α) (h : (alistGet m k').isSome = true) :
    (alistGet (alistSet m k v) k').isSome = true := by
  by_cases hk : k = k'
  · subst hk
    rw [alistGet_set_self]
    rfl
  · rw [alistGet_set_ne m k k' v hk]
    exact h

theorem storeDetail_mono (m : List (String × SignedTransaction))
    (d : Option SignedTransaction) (k : String)
    (h : (alistGet m k).isSome = true) :
    (alistGet (storeDetail m d) k).isSome = true := by
  cases d with
  | none => exact h
  | some d =>
    simp only [storeDetail]
    split
    · exact h
    · exact alistGet_set_isSome m d.hash k d h

theorem foldl_storeDetail_mono (ds : List (Option SignedTransaction))
    (m : List (String × SignedTransaction)) (k : String)
    (h : (alistGet m k).isSome = true) :
    (alistGet (ds.foldl storeDetail m) k).isSome = true := by
  induction ds generalizing m with
  | nil => exact h
  | cons d ds ih => exact ih _ (storeDetail_mono m d k h)

theorem loadMore_signed_mono (env : LoadEnv) (s : ManagerState) (k : String)
    (h : (alistGet s.allSignedTransactions k).isSome = true) :
    (alistGet (loadMore env s).state.allSignedTransactions k).isSome = true := by
  by_cases hl : s.lock = true
  · rw [loadMore_locked env s hl]
    exact h
  · rw [Bool.not_eq_true] at hl
    by_cases ha : env.available = true
    · cases hi : effResponse s.nextIncomingPage env.incoming with
      | error e =>
        obtain ⟨c, hr, _⟩ := loadMore_fetchError env s hl ha (Or.inl ⟨e, hi⟩)
        rw [hr]
        exact h
      | ok ir =>
        cases ho : effResponse s.nextOutgoingPage env.outgoing with
        | error e =>
          obtain ⟨c, hr, _⟩ := loadMore_fetchError env s hl ha (Or.inr ⟨e, ho⟩)
          rw [hr]
          exact h
        | ok og =>
          cases hb : env.batch with
          | error e =>
            simp only [loadMore, hl, ha, hi, ho, hb, Bool.false_eq_true, if_false,
              Bool.not_true, ite_false, Bool.not_false, ite_true]
            split
            · simpa [dropGetOrderedTransactionsCache] using h
            · exact h
          | ok ds =>
            simp only [loadMore, hl, ha, hi, ho, hb, Bool.false_eq_true, if_false,
              Bool.not_true, ite_false, Bool.not_false, ite_true]
            split
            · simpa [dropGetOrderedTransactionsCache] using h
            · simp only [dropGetOrderedTransactionsCache]
              exact foldl_storeDetail_mono ds _ k h
    · rw [Bool.not_eq_true] at ha
      rw [loadMore_unavailable env s hl ha]
      exact h

/-! Invariant preservation. -/

theorem loadMore_ok_inv (env : LoadEnv) (s : ManagerState)
    (hq : QueueSorted s.transactionQueue)
    (hok : (loadMore env s).outcome = LoadOutcome.ok) :
    Inv (loadMore env s).state := by
  by_cases hl : s.lock = true
  · rw [loadMore_locked env s hl] at hok
    cases hok
  · rw [Bool.not_eq_true] at hl
    by_cases ha : env.available = true
    · cases hi : effResponse s.nextIncomingPage env.incoming with
      | error e =>
        obtain ⟨c, hr, _⟩ := loadMore_fetchError env s hl ha (Or.inl ⟨e, hi⟩)
        rw [hr] at hok
        cases hok
      | ok ir =>
        cases ho : effResponse s.nextOutgoingPage env.outgoing with
        | error e =>
          obtain ⟨c, hr, _⟩ := loadMore_fetchError env s hl ha (Or.inr ⟨e, ho⟩)
          rw [hr] at hok
          cases hok
        | ok og =>
          cases hb : env.batch with
          | error e =>
            simp only [loadMore, hl, ha, hi, ho, hb, Bool.false_eq_true, if_false,
              Bool.not_true, ite_false, Bool.not_false, ite_true] at hok ⊢
            split at hok
            · rename_i hcond
              rw [if_pos hcond]
              refine ⟨?_, rfl, Or.inl ⟨rfl, rfl, rfl⟩⟩
              simp only [dropGetOrderedTransactionsCache]
              exact queueSorted_foldl_insert _ _ hq
            · cases hok
          | ok ds =>
            simp only [loadMore, hl, ha, hi, ho, hb, Bool.false_eq_true, if_false,
              Bool.not_true, ite_false, Bool.not_false, ite_true]
            split
            · refine ⟨?_, rfl, Or.inl ⟨rfl, rfl, rfl⟩⟩
              simp only [dropGetOrderedTransactionsCache]
              exact queueSorted_foldl_insert _ _ hq
            · refine ⟨?_, rfl, Or.inl ⟨rfl, rfl, rfl⟩⟩
              simp only [dropGetOrderedTransactionsCache]
              exact queueSorted_foldl_insert _ _ hq
    · rw [Bool.not_eq_true] at ha
      rw [loadMore_unavailable env s hl ha] at hok
      cases hok

theorem reachable_inv {s : ManagerState} (h : Reachable s) : Inv s := by
  induction h with
  | init network walletAddress contract pageSizeParam =>
    exact ⟨List.Pairwise.nil, rfl, Or.inl ⟨rfl, rfl, rfl⟩⟩
  | loadMore env hr hok ih => exact loadMore_ok_inv env _ ih.1 hok
  | query hr ih => exact (getOrdered_char _ ih).2.2

/-! Support lemmas for the safe-prefix claims. -/

theorem safeIndex_le (s : ManagerState) :
    safeIndex s ≤ s.inorderTransactionHashes.length := by
  unfold safeIndex
  split
  · exact le_refl _
  · exact le_trans (min_le_right _ _) (Nat.sub_le _ _)

theorem length_filterMap_isSome {α β : Type} (f : α → Option β) (l : List α)
    (h : ∀ a ∈ l, (f a).isSome = true) : (l.filterMap f).length = l.length := by
  induction l with
  | nil => rfl
  | cons a l ih =>
    cases hf : f a with
    | none =>
      have := h a (List.mem_cons_self a l)
      rw [hf] at this
      cases this
    | some b =>
      rw [List.filterMap_cons_some hf, List.length_cons, List.length_cons,
        ih (fun x hx => h x (List.mem_cons_of_mem _ hx))]

theorem mem_take_ne_getLast (o : List HashVal) (hnd : o.Nodup) (n : Nat)
    (hn : n ≤ o.length - 1) (h : HashVal) (hm : h ∈ o.take n) :
    some h ≠ o.getLast? := by
  intro heq
  obtain ⟨ys, hys⟩ := List.getLast?_eq_some_iff.mp heq.symm
  subst hys
  have hlen : (ys ++ [h]).length - 1 = ys.length := by
    simp
  rw [hlen] at hn
  have hmy : h ∈ ys := by
    have := @List.take_append_of_le_length HashVal ys [h] n hn
    rw [this] at hm
    exact List.take_subset n ys hm
  rw [List.nodup_append] at hnd
  exact hnd.2.2 hmy (List.mem_singleton_self h)

/-- Combined consequence of reachability for `getOrderedTransactions`: the
result is the safe prefix of the drained ordered hash list, mapped through
`buildEntry`, and the drained state is well formed. -/
theorem getOrdered_reachable_spec (s : ManagerState) (hs : Reachable s) :
    (getOrderedTransactions s).1 =
      ((getOrderedTransactions s).2.inorderTransactionHashes.take
        (safeIndex (getOrderedTransactions s).2)).filterMap
        (buildEntry (getOrderedTransactions s).2) ∧
    DrainP (getOrderedTransactions s).2.allTransactions
      (getOrderedTransactions s).2.inorderTransactionHashes := by
  have hInv := reachable_inv hs
  obtain ⟨hres, hdr, hinv⟩ := getOrdered_char s hInv
  exact ⟨hres, drained_drainP _ hinv.1 hdr.1⟩

/-- The second-filter of `_populateSignedTransactions` is the identity on the
hash list built at line 543: every hash surviving the line-543 filter is a
nonempty string. -/
theorem filter_ne_empty_of_valid (ts : List Transfer) :
    ((ts.filter (fun t => validHash t.hash)).map
      (fun t => hashToStr t.hash)).filter (fun h => h ≠ "") =
    (ts.filter (fun t => validHash t.hash)).map (fun t => hashToStr t.hash) := by
  apply List.filter_eq_self.mpr
  intro a ha
  obtain ⟨t, ht, rfl⟩ := List.mem_map.mp ha
  have hv : validHash t.hash = true := (List.mem_filter.mp ht).2
  cases hh : t.hash with
  | undef => rw [hh] at hv; cases hv
  | null => rw [hh] at hv; cases hv
  | str z =>
    rw [hh] at hv
    simp only [validHash] at hv
    simp [hashToStr, hh, hv]

/-- The hash list handed to the batch detail fetch by `loadMore`, in terms of
the settled pages: `none` when the (doubly) filtered hash list is empty (the
early return of `_populateSignedTransactions`), otherwise the hashes not yet
in the signed-transaction map. -/
theorem loadMore_batchCall_eq (env : LoadEnv) (s : ManagerState)
    (ir og : FetchResponse)
    (hl : s.lock = false) (ha : env.available = true)
    (hi : effResponse s.nextIncomingPage env.incoming = Except.ok ir)
    (ho : effResponse s.nextOutgoingPage env.outgoing = Except.ok og) :
    (loadMore env s).batchCall =
      (let inputHashes := ((ir.transfers ++ og.transfers).filter
          (fun t => validHash t.hash)).map (fun t => hashToStr t.hash)
       let hashes := inputHashes.filter (fun h => h ≠ "")
       if hashes.length = 0 then none
       else some (hashes.filter
         (fun h => !(alistGet s.allSignedTransactions h).isSome))) := by
  cases hb : env.batch with
  | error e =>
    simp only [loadMore, hl, ha, hi, ho, hb, Bool.false_eq_true, if_false,
      Bool.not_true, ite_false, Bool.not_false, ite_true]
    split <;> simp_all
  | ok ds =>
    simp only [loadMore, hl, ha, hi, ho, hb, Bool.false_eq_true, if_false,
      Bool.not_true, ite_false, Bool.not_false, ite_true]
    split <;> simp_all

/-- Every transfer of the two settled pages is inserted into the queue by
`loadMore` (lines 539-540), whatever the batch fetch later does. -/
theorem loadMore_queue_mem (env : LoadEnv) (s : ManagerState)
    (ir og : FetchResponse)
    (hl : s.lock = false) (ha : env.available = true)
    (hi : effResponse s.nextIncomingPage env.incoming = Except.ok ir)
    (ho : effResponse s.nextOutgoingPage env.outgoing = Except.ok og)
    (t : Transfer) (ht : t ∈ ir.transfers ++ og.transfers) :
    t ∈ (loadMore env s).state.transactionQueue := by
  have hgen : t ∈ (ir.transfers ++ og.transfers).foldl
      (fun q x => insertQueue x q) s.transactionQueue :=
    (mem_foldl_insert _ _ t).mpr (Or.inl ht)
  cases hb : env.batch with
  | error e =>
    simp only [loadMore, hl, ha, hi, ho, hb, Bool.false_eq_true, if_false,
      Bool.not_true, ite_false, Bool.not_false, ite_true]
    split <;> simp_all [dropGetOrderedTransactionsCache]
  | ok ds =>
    simp only [loadMore, hl, ha, hi, ho, hb, Bool.false_eq_true, if_false,
      Bool.not_true, ite_false, Bool.not_false, ite_true]
    split <;> simp_all [dropGetOrderedTransactionsCache]

/-! Claim theorems. -/

/-- C4: if, during a `loadMore()` call (manager unlocked, remote source
available), the page fetch actually performed for either feed rejects, then
`loadMore()` fails with a `FetchError` carrying the cause and the aggregator
state is unchanged: no cursor advances, nothing is enqueued, `pagesLoaded`
and the ordering caches are untouched, no batch detail fetch is made, and
the lock ends released. -/
theorem claim_C4_fetch_failure_atomic (env : LoadEnv) (s : ManagerState)
    (hl : s.lock = false) (ha : env.available = true)
    (he : (∃ e, effResponse s.nextIncomingPage env.incoming = Except.error e) ∨
          (∃ e, effResponse s.nextOutgoingPage env.outgoing = Except.error e)) :
    ∃ c, (loadMore env s).outcome = LoadOutcome.fetchError c ∧
      (effResponse s.nextIncomingPage env.incoming = Except.error c ∨
       effResponse s.nextOutgoingPage env.outgoing = Except.error c) ∧
      (loadMore env s).state = s ∧ (loadMore env s).state.lock = false ∧
      (loadMore env s).batchCall = none := by
  obtain ⟨c, hr, hco⟩ := loadMore_fetchError env s hl ha he
  refine ⟨c, by rw [hr], hco, by rw [hr], ?_, by rw [hr]⟩
  rw [hr]
  exact hl

theorem claim_C4_fetch_failure_atomic_witness :
    ∃ c, (loadMore envIncomingReject mgr0).outcome = LoadOutcome.fetchError c ∧
      (effResponse mgr0.nextIncomingPage envIncomingReject.incoming =
        Except.error c ∨
       effResponse mgr0.nextOutgoingPage envIncomingReject.outgoing =
        Except.error c) ∧
      (loadMore envIncomingReject mgr0).state = mgr0 ∧
      (loadMore envIncomingReject mgr0).state.lock = false ∧
      (loadMore envIncomingReject mgr0).batchCall = none :=
  claim_C4_fetch_failure_atomic envIncomingReject mgr0 (by decide) (by decide)
    (Or.inl ⟨"boom", rfl⟩)

/-- C5: the claim says every terminating `loadMore()` leaves the lock
released on every exit path.  The code violates this: the `try` block covers
only the two page fetches, so when the batch signed-details fetch rejects
the error propagates out of `loadMore()` with the lock still held.  This
theorem evaluates the code on such a run: both page fetches succeed, the
batch fetch rejects, and the lock remains set afterwards (while the cursors
and the queue were already updated and `pagesLoaded` was not). -/
theorem claim_C5_lock_not_released_on_batch_rejection :
    (loadMore envBatchReject mgr0).outcome = LoadOutcome.batchError "network down" ∧
    (loadMore envBatchReject mgr0).state.lock = true ∧
    (loadMore envBatchReject mgr0).state.pagesLoaded = 0 ∧
    (loadMore envBatchReject mgr0).state.transactionQueue =
      [{ hash := HashVal.str "0xa", blockTimestamp := 5 }] ∧
    (loadMore envBatchReject mgr0).state.nextIncomingPage = Cursor.exhausted := by
  decide

/-- C9: no operation of the aggregator removes an entry from the
signed-transaction details map: `_dropGetOrderedTransactionsCache` clears the
grouped-transfer map, the ordered hash list and the ordered cache but leaves
`signedDetails` exactly unchanged; `getOrderedTransactions` leaves it exactly
unchanged; and `loadMore` never removes a key from it. -/
theorem claim_C9_signed_details_durable (env : LoadEnv) (s : ManagerState)
    (k : String) :
    ((dropGetOrderedTransactionsCache s).allSignedTransactions =
        s.allSignedTransactions ∧
     (dropGetOrderedTransactionsCache s).allTransactions = [] ∧
     (dropGetOrderedTransactionsCache s).inorderTransactionHashes = [] ∧
     (dropGetOrderedTransactionsCache s).getOrderedTransactionsCache = none) ∧
    (getOrderedTransactions s).2.allSignedTransactions =
      s.allSignedTransactions ∧
    ((alistGet s.allSignedTransactions k).isSome = true →
      (alistGet (loadMore env s).state.allSignedTransactions k).isSome = true) := by
  exact ⟨⟨rfl, rfl, rfl, rfl⟩, (getOrdered_frame s).2.1,
    fun h => loadMore_signed_mono env s k h⟩

theorem claim_C9_signed_details_durable_witness :
    (alistGet (loadMore envEmptyLast mgrData).state.allSignedTransactions
      "0xa").isSome = true :=
  (claim_C9_signed_details_durable envEmptyLast mgrData "0xa").2.2 (by decide)

/-- C6 counterexample: the claim says a cursor holding any non-null token is
fetched with exactly that token.  But the fetch site passes
`cursor || undefined`, so the reachable empty-string token is coerced to
`undefined` (a first-page fetch), not passed through. -/
theorem claim_C6_counterexample :
    mgrEmptyToken.nextIncomingPage = Cursor.token "" ∧
    (loadMore envEmptyLast mgrEmptyToken).incomingCall = some none ∧
    some (none : Option String) ≠ some (some "") := by
  decide

/-- C6 amended: for each feed independently within an executing `loadMore()`
(unlocked, remote available): an exhausted (`null`) cursor suppresses the
fetch and stays `null`; an uninitialized cursor fetches the first page
(`undefined` page key); a non-null, non-empty token is passed through
exactly; and an empty-string token is coerced to `undefined` and fetches the
first page. -/
theorem claim_C6_cursor_states (env : LoadEnv) (s : ManagerState)
    (hl : s.lock = false) (ha : env.available = true) :
    (s.nextIncomingPage = Cursor.exhausted →
      (loadMore env s).incomingCall = none ∧
      (loadMore env s).state.nextIncomingPage = Cursor.exhausted) ∧
    (s.nextIncomingPage = Cursor.undef →
      (loadMore env s).incomingCall = some none) ∧
    (∀ k, ¬k = "" → s.nextIncomingPage = Cursor.token k →
      (loadMore env s).incomingCall = some (some k)) ∧
    (s.nextIncomingPage = Cursor.token "" →
      (loadMore env s).incomingCall = some none) ∧
    (s.nextOutgoingPage = Cursor.exhausted →
      (loadMore env s).outgoingCall = none ∧
      (loadMore env s).state.nextOutgoingPage = Cursor.exhausted) ∧
    (s.nextOutgoingPage = Cursor.undef →
      (loadMore env s).outgoingCall = some none) ∧
    (∀ k, ¬k = "" → s.nextOutgoingPage = Cursor.token k →
      (loadMore env s).outgoingCall = some (some k)) ∧
    (s.nextOutgoingPage = Cursor.token "" →
      (loadMore env s).outgoingCall = some none) := by
  obtain ⟨hic, hoc⟩ := loadMore_calls env s hl ha
  obtain ⟨hie, hoe⟩ := loadMore_exhausted_stays env s
  refine ⟨fun hc => ⟨?_, hie hc⟩, fun hc => ?_, fun k hk hc => ?_, fun hc => ?_,
    fun hc => ⟨?_, hoe hc⟩, fun hc => ?_, fun k hk hc => ?_, fun hc => ?_⟩
  · rw [hic, hc]
    simp [fetchCall]
  · rw [hic, hc]
    simp [fetchCall, pageKeyArg]
  · rw [hic, hc]
    simp [fetchCall, pageKeyArg, hk]
  · rw [hic, hc]
    simp [fetchCall, pageKeyArg]
  · rw [hoc, hc]
    simp [fetchCall]
  · rw [hoc, hc]
    simp [fetchCall, pageKeyArg]
  · rw [hoc, hc]
    simp [fetchCall, pageKeyArg, hk]
  · rw [hoc, hc]
    simp [fetchCall, pageKeyArg]

theorem claim_C6_cursor_states_witness :
    (loadMore envEmptyLast mgrEmptyToken).outgoingCall = some (some "next") :=
  (claim_C6_cursor_states envEmptyLast mgrEmptyToken (by decide)
    (by decide)).2.2.2.2.2.2.1 "next" (by decide) (by decide)

/-- C7 counterexample: the claim says a caller cannot mutate the
aggregator's internal state, in particular the ordered cache or its
elements, through a returned sequence.  But the cache-hit return
(`[...cache]`) is a shallow copy: the fresh array holds the same element
references as the cache, so overwriting the object behind a reference taken
from the returned array changes what the cache dereferences to. -/
theorem claim_C7_counterexample :
    cacheHitReturnRefs [0] = [0] ∧
    derefAll (storeSet [ftFix] 0 ftFix2) [0] ≠ derefAll [ftFix] [0] := by
  decide

/-- C7 amended: two `getOrderedTransactions()` calls with no intervening
`loadMore()` return (deep-)equal sequences and leave the state unchanged;
each returned array is freshly allocated, so array-level mutation of one
returned sequence affects neither the aggregator nor another returned
sequence — but the Full Transaction elements are shared by reference with
the internal cache, so mutating an element through a returned sequence does
mutate the aggregator's cached elements. -/
theorem claim_C7_idempotent_snapshot (s : ManagerState) (hs : Reachable s) :
    (getOrderedTransactions (getOrderedTransactions s).2).1 =
      (getOrderedTransactions s).1 ∧
    (getOrderedTransactions (getOrderedTransactions s).2).2 =
      (getOrderedTransactions s).2 := by
  obtain ⟨hres, hdr, hinv⟩ := getOrdered_char s (reachable_inv hs)
  have hc : (getOrderedTransactions s).2.getOrderedTransactionsCache =
      some (getOrderedTransactions s).1 := by
    rw [hdr.2, hres]
  rw [getOrdered_cache_hit (getOrderedTransactions s).2
    (getOrderedTransactions s).1 hc]
  exact ⟨rfl, rfl⟩

/-- Reachability of the concrete post-`loadMore` manager used as witness. -/
theorem mgrData_reachable : Reachable mgrData :=
  Reachable.loadMore envData (Reachable.init "sepolia" walletA none 10)
    (by decide)

theorem claim_C7_idempotent_snapshot_witness :
    (getOrderedTransactions (getOrderedTransactions mgrData).2).1 =
      (getOrderedTransactions mgrData).1 ∧
    (getOrderedTransactions (getOrderedTransactions mgrData).2).2 =
      (getOrderedTransactions mgrData).2 :=
  claim_C7_idempotent_snapshot mgrData mgrData_reachable

/-- C8 counterexample: the claim says the hash list passed to the batch
signed-details fetch is distinct.  The code never deduplicates it: two
freshly fetched transfers sharing hash `0xa` put `0xa` twice into the list
handed to `getBatchTransactionsByHashForNetwork`. -/
theorem claim_C8_counterexample :
    (loadMore envDupHash mgr0).batchCall = some ["0xa", "0xa"] ∧
    ¬(["0xa", "0xa"] : List String).Nodup := by
  decide

/-- C8 amended: the list of hashes passed to the batch signed-details fetch
consists of the non-empty hashes of the freshly fetched transfers, with
multiplicity (a hash occurs once per fetched transfer bearing it), excluding
hashes already present in the signed-details cache; no call is made when
there is no non-empty hash at all. -/
theorem claim_C8_batch_hashes (env : LoadEnv) (s : ManagerState)
    (ir og : FetchResponse)
    (hl : s.lock = false) (ha : env.available = true)
    (hi : effResponse s.nextIncomingPage env.incoming = Except.ok ir)
    (ho : effResponse s.nextOutgoingPage env.outgoing = Except.ok og) :
    (loadMore env s).batchCall =
      (let freshHashes := ((ir.transfers ++ og.transfers).filter
          (fun t => validHash t.hash)).map (fun t => hashToStr t.hash)
       if freshHashes.length = 0 then none
       else some (freshHashes.filter
         (fun h => !(alistGet s.allSignedTransactions h).isSome))) := by
  rw [loadMore_batchCall_eq env s ir og hl ha hi ho]
  simp only [filter_ne_empty_of_valid]

theorem claim_C8_batch_hashes_witness :
    (loadMore envData mgr0).batchCall =
      (let freshHashes := ((pageDataIn.transfers ++ pageDataOut.transfers).filter
          (fun t => validHash t.hash)).map (fun t => hashToStr t.hash)
       if freshHashes.length = 0 then none
       else some (freshHashes.filter
         (fun h => !(alistGet mgr0.allSignedTransactions h).isSome))) :=
  claim_C8_batch_hashes envData mgr0 pageDataIn pageDataOut (by decide)
    (by decide) rfl rfl

/-- Key facts about the ordered output on reachable states: its keys are
exactly the safe prefix of the ordered hash list, in order; the ordered hash
list has no duplicates; the output keys have no duplicates; and the output
length equals the safe index. -/
theorem ordered_hashes_spec (s : ManagerState) (hs : Reachable s) :
    (getOrderedTransactions s).1.map ftKey =
      ((getOrderedTransactions s).2.inorderTransactionHashes.take
        (safeIndex (getOrderedTransactions s).2)).map some ∧
    (getOrderedTransactions s).2.inorderTransactionHashes.Nodup ∧
    ((getOrderedTransactions s).1.map ftKey).Nodup ∧
    (getOrderedTransactions s).1.length =
      safeIndex (getOrderedTransactions s).2 := by
  obtain ⟨hres, hP⟩ := getOrdered_reachable_spec s hs
  obtain ⟨hall, hkey⟩ := buildEntry_spec _ hP
  have hnd := hP.1
  have hmap : (getOrderedTransactions s).1.map ftKey =
      ((getOrderedTransactions s).2.inorderTransactionHashes.take
        (safeIndex (getOrderedTransactions s).2)).map some := by
    rw [hres]
    apply filterMap_keys_eq
    · intro h hm
      exact hall h (List.take_subset _ _ hm)
    · intro h hm ft hft
      exact (hkey h ft hft).1
  refine ⟨hmap, hnd, ?_, ?_⟩
  · rw [hmap]
    exact (hnd.sublist (List.take_sublist _ _)).map (Option.some_injective _)
  · rw [hres, length_filterMap_isSome, List.length_take]
    · exact min_eq_left (safeIndex_le _)
    · intro h hm
      obtain ⟨ft, hft⟩ := hall h (List.take_subset _ _ hm)
      rw [hft]
      rfl

/-- C1: on every reachable state, `getOrderedTransactions()` returns Full
Transactions for exactly the first `safeIndex` hashes of the (drained)
ordered hash list, in order: when `isAtLastPage()` is false that index is
`min(pagesLoaded * (pageSize / 2), length - 1)` — so the most-recently-seen
hash (the last of the ordered hash list) is never included — and when
`isAtLastPage()` is true it is the full length of the ordered hash list. -/
theorem claim_C1_safe_index (s : ManagerState) (hs : Reachable s) :
    (isAtLastPage s = true →
      (getOrderedTransactions s).1.length =
        (getOrderedTransactions s).2.inorderTransactionHashes.length) ∧
    (isAtLastPage s = false →
      (getOrderedTransactions s).1.length =
        min (s.pagesLoaded * (s.pageSize / 2))
          ((getOrderedTransactions s).2.inorderTransactionHashes.length - 1)) ∧
    (getOrderedTransactions s).1.map ftKey =
      ((getOrderedTransactions s).2.inorderTransactionHashes.take
        ((getOrderedTransactions s).1.length)).map some ∧
    (isAtLastPage s = false →
      ∀ ft ∈ (getOrderedTransactions s).1,
        ftKey ft ≠
          (getOrderedTransactions s).2.inorderTransactionHashes.getLast?) := by
  obtain ⟨hmap, hnd, hknd, hlen⟩ := ordered_hashes_spec s hs
  have hfr := getOrdered_frame s
  have hatl : isAtLastPage (getOrderedTransactions s).2 = isAtLastPage s := by
    unfold isAtLastPage
    rw [hfr.1.2.1, hfr.1.2.2.1]
  have hpl : (getOrderedTransactions s).2.pagesLoaded = s.pagesLoaded :=
    hfr.1.2.2.2.2
  have hps : (getOrderedTransactions s).2.pageSize = s.pageSize :=
    hfr.1.2.2.2.1
  refine ⟨?_, ?_, ?_, ?_⟩
  · intro h
    rw [hlen]
    unfold safeIndex
    rw [hatl, h]
    simp
  · intro h
    rw [hlen]
    unfold safeIndex
    rw [hatl, h, hpl, hps]
    simp
  · rw [hlen]
    exact hmap
  · intro h ft hm
    have hkm : ftKey ft ∈ (getOrderedTransactions s).1.map ftKey :=
      List.mem_map_of_mem ftKey hm
    rw [hmap] at hkm
    obtain ⟨h1, hh1, hkey1⟩ := List.mem_map.mp hkm
    rw [← hkey1]
    refine mem_take_ne_getLast _ hnd _ ?_ h1 hh1
    unfold safeIndex
    rw [hatl, h]
    simp

theorem claim_C1_safe_index_witness :
    (getOrderedTransactions mgrData).1.length =
      min (mgrData.pagesLoaded * (mgrData.pageSize / 2))
        ((getOrderedTransactions mgrData).2.inorderTransactionHashes.length
          - 1) :=
  (claim_C1_safe_index mgrData mgrData_reachable).2.1 (by decide)

/-- C2: on every reachable state, the output of `getOrderedTransactions()`
is sorted in descending order of each hash-group's (head) transfer
timestamp, equal timestamps comparing as equal. -/
theorem claim_C2_sorted_descending (s : ManagerState) (hs : Reachable s) :
    (getOrderedTransactions s).1.Pairwise
      (fun f1 f2 => tsDescB (ftHeadTs f1) (ftHeadTs f2) = true) := by
  obtain ⟨hres, hP⟩ := getOrdered_reachable_spec s hs
  obtain ⟨hall, hkey⟩ := buildEntry_spec _ hP
  rw [hres]
  refine List.Pairwise.filterMap _ ?_ hP.2.2.2.take
  intro h1 h2 hr ft1 hft1 ft2 hft2
  obtain ⟨hk1, t1, hg1, hts1⟩ := hkey h1 ft1 hft1
  obtain ⟨hk2, t2, hg2, hts2⟩ := hkey h2 ft2 hft2
  rw [hts1, hts2]
  simp [tsDescB, hr t1 t2 hg1 hg2]

theorem claim_C2_sorted_descending_witness :
    (getOrderedTransactions mgrData).1.Pairwise
      (fun f1 f2 => tsDescB (ftHeadTs f1) (ftHeadTs f2) = true) :=
  claim_C2_sorted_descending mgrData mgrData_reachable

/-- C3: on every reachable state, each transaction hash appears at most once
among the Full Transactions returned by `getOrderedTransactions()`,
regardless of how many Transfer records share that hash: the list of
group keys of the output has no duplicates. -/
theorem claim_C3_hash_appears_once (s : ManagerState) (hs : Reachable s) :
    ((getOrderedTransactions s).1.map ftKey).Nodup :=
  (ordered_hashes_spec s hs).2.2.1

theorem claim_C3_hash_appears_once_witness :
    ((getOrderedTransactions mgrData).1.map ftKey).Nodup :=
  claim_C3_hash_appears_once mgrData mgrData_reachable

/-- C10 counterexample: the claim says all missing-hash transfers coalesce
into a single group occupying one slot and producing at most one Full
Transaction.  But `undefined` and `null` are distinct `Map` keys: one
transfer with an `undefined` hash and one with a `null` hash produce two
slots in the ordered hash list and two Full Transactions. -/
theorem claim_C10_counterexample :
    (loadMore envMissingHash mgr0).outcome = LoadOutcome.ok ∧
    (loadMore envMissingHash mgr0).batchCall = none ∧
    (getOrderedTransactions mgrMissingHash).2.inorderTransactionHashes =
      [HashVal.undef, HashVal.null] ∧
    (getOrderedTransactions mgrMissingHash).1.length = 2 := by
  decide

/-- C10 amended: a fetched Transfer whose hash is missing or empty is
excluded from signed-details enrichment but still inserted into the queue;
during `getOrderedTransactions()` transfers are coalesced into one group per
distinct hash value (`undefined`, `null` and `''` being three distinct
values), each group occupying one slot in the ordered hash list and
producing at most one Full Transaction; transfers with different
missing-hash values form different groups. -/
theorem claim_C10_missing_hash_grouping (env : LoadEnv) (s : ManagerState)
    (ir og : FetchResponse)
    (hl : s.lock = false) (ha : env.available = true)
    (hi : effResponse s.nextIncomingPage env.incoming = Except.ok ir)
    (ho : effResponse s.nextOutgoingPage env.outgoing = Except.ok og) :
    (∀ t ∈ ir.transfers ++ og.transfers,
      t ∈ (loadMore env s).state.transactionQueue) ∧
    (∀ l, (loadMore env s).batchCall = some l →
      ∀ x ∈ l, ∃ t, t ∈ ir.transfers ++ og.transfers ∧
        validHash t.hash = true ∧ x = hashToStr t.hash) ∧
    (∀ s2, Reachable s2 →
      (getOrderedTransactions s2).2.inorderTransactionHashes.Nodup ∧
      (∀ h g,
        alistGet (getOrderedTransactions s2).2.allTransactions h = some g →
        ∀ t ∈ g, t.hash = h) ∧
      ((getOrderedTransactions s2).1.map ftKey).Nodup) := by
  refine ⟨fun t ht => loadMore_queue_mem env s ir og hl ha hi ho t ht, ?_, ?_⟩
  · rw [loadMore_batchCall_eq env s ir og hl ha hi ho]
    simp only [filter_ne_empty_of_valid]
    intro l hl2
    split at hl2
    · cases hl2
    · injection hl2 with hl2
      subst hl2
      intro x hx
      have hx1 := (List.mem_filter.mp hx).1
      obtain ⟨t, htf, rfl⟩ := List.mem_map.mp hx1
      exact ⟨t, (List.mem_filter.mp htf).1, (List.mem_filter.mp htf).2, rfl⟩
  · intro s2 hs2
    obtain ⟨hres, hP⟩ := getOrdered_reachable_spec s2 hs2
    obtain ⟨hmap, hnd, hknd, hlen⟩ := ordered_hashes_spec s2 hs2
    exact ⟨hnd, fun h g hg => (hP.2.2.1 h g hg).2, hknd⟩

theorem claim_C10_missing_hash_grouping_witness :
    ({ hash := HashVal.undef, blockTimestamp := 5 } : Transfer) ∈
      (loadMore envMissingHash mgr0).state.transactionQueue :=
  (claim_C10_missing_hash_grouping envMissingHash mgr0 pageMissIn pageMissOut
    (by decide) (by decide) rfl rfl).1 _ (by decide)

end TandaPay
